import Mathlib

/-!
Verification of the graph-modification model in `code/models.py`
(repository `SceneGraphModification`).

The development shallowly embeds the pure computational content of the
source file:

* the pair-index construction of `Decoder.forward` (models.py lines 505-516),
* the structural attention-mask builder `get_attention_mask` (lines 36-62),
* the loss aggregation `GraphTrans.compute_loss` (lines 106-131) together
  with the semantics of `nn.CrossEntropyLoss(reduction="sum", ignore_index=…)`,
* the shared Luong attention primitive `Attention` (lines 346-390), and
* the decoders `Decoder.node_forward` / `Decoder.edge_forward`
  (lines 438-495) with the weight-tied output projections.

Tensors are embedded as (nested) lists, machine floats as real numbers,
`-inf` produced by `masked_fill_` as `Option ℝ` with `none` denoting `-∞`
(so that `exp (-∞) = 0` is modelled by `expO none = 0`), and the black-box
recurrent networks (`nn.GRU`) as explicit function parameters, in the same
way the pretrained BERT encoder is treated as an external function by the
source itself.  Dropout layers are embedded in evaluation semantics (the
identity), which is the regime in which the produced values are specified.
-/

namespace SceneGraph

/-! ## Pair Index Builder

Embedding of `Decoder.forward` lines 505-516 of models.py:

```
src_nodes_indices = reduce(lambda x, y: x+y,
    [[i for _ in range(i)] for i in range(1, node_size-1)]) if node_size > 2 else []
src_nodes_indices = src_nodes_indices + [src_nodes_indices[-1]+1] if src_nodes_indices else [0]
tgt_nodes_indices = reduce(lambda x, y: x+y,
    [[j for j in range(i)] for i in range(1, node_size-1)]) if node_size > 2 else []
tgt_nodes_indices = tgt_nodes_indices + [src_nodes_indices[-1]] if tgt_nodes_indices else [0]
```

Note that at the moment the target list is extended, `src_nodes_indices`
already contains its own appended final element, so the value appended to
the target list is the *final* source index. -/

/-- The triangular part of the source-index table:
`reduce(+, [[i for _ in range(i)] for i in range(1, k+1)])` where `k = n-2`. -/
def srcTri (k : ℕ) : List ℕ :=
  ((List.range' 1 k).map (fun i => List.replicate i i)).flatten

/-- The triangular part of the target-index table:
`reduce(+, [[j for j in range(i)] for i in range(1, k+1)])` where `k = n-2`. -/
def tgtTri (k : ℕ) : List ℕ :=
  ((List.range' 1 k).map (fun i => List.range i)).flatten

/-- The source-index table of the Pair Index Builder (models.py 507-508).
`n` is `node_size`, the length of the node hidden-state sequence. -/
def src_nodes_indices (n : ℕ) : List ℕ :=
  let base : List ℕ := if 2 < n then srcTri (n - 2) else []
  if base = [] then [0] else base ++ [base.getLastD 0 + 1]

/-- The target-index table of the Pair Index Builder (models.py 513-514).
The appended element is the last element of the already-extended source
table. -/
def tgt_nodes_indices (n : ℕ) : List ℕ :=
  let base : List ℕ := if 2 < n then tgtTri (n - 2) else []
  if base = [] then [0] else base ++ [(src_nodes_indices n).getLastD 0]

/-- Both tables of the Pair Index Builder. -/
def pairIndices (n : ℕ) : List ℕ × List ℕ :=
  (src_nodes_indices n, tgt_nodes_indices n)

/-- The enumeration described by the specification: source index `i`
increasing from `1` to `n-2`, and for each `i` the target index `j` from
`0` to `i-1`. -/
def specPairEnum (n : ℕ) : List (ℕ × ℕ) :=
  ((List.range' 1 (n - 2)).map (fun i => (List.range i).map (fun j => (i, j)))).flatten

lemma srcTri_succ (k : ℕ) :
    srcTri (k + 1) = srcTri k ++ List.replicate (k + 1) (k + 1) := by
  have h := @List.range'_concat 1 1 k
  simp only [srcTri, h, List.map_append, List.flatten_append]
  simp [Nat.add_comm]

lemma tgtTri_succ (k : ℕ) :
    tgtTri (k + 1) = tgtTri k ++ List.range (k + 1) := by
  have h := @List.range'_concat 1 1 k
  simp only [tgtTri, h, List.map_append, List.flatten_append]
  simp [Nat.add_comm]

lemma srcTri_length (k : ℕ) : (srcTri k).length = Nat.choose k 2 + k := by
  induction k with
  | zero => simp [srcTri]
  | succ k ih =>
    have hch : Nat.choose (k + 1) 2 = Nat.choose k 1 + Nat.choose k 2 :=
      Nat.choose_succ_succ k 1
    rw [srcTri_succ, List.length_append, ih, List.length_replicate]
    rw [hch, Nat.choose_one_right]
    omega

lemma tgtTri_length (k : ℕ) : (tgtTri k).length = Nat.choose k 2 + k := by
  induction k with
  | zero => simp [tgtTri]
  | succ k ih =>
    have hch : Nat.choose (k + 1) 2 = Nat.choose k 1 + Nat.choose k 2 :=
      Nat.choose_succ_succ k 1
    rw [tgtTri_succ, List.length_append, ih, List.length_range]
    rw [hch, Nat.choose_one_right]
    omega

lemma srcTri_getLastD_succ (k : ℕ) : (srcTri (k + 1)).getLastD 0 = k + 1 := by
  rw [srcTri_succ, List.replicate_succ', ← List.append_assoc]
  exact List.getLastD_concat _ _ _

lemma srcTri_ne_nil (k : ℕ) : srcTri (k + 1) ≠ [] := by
  intro h
  have := srcTri_length (k + 1)
  rw [h] at this
  simp at this
  omega

lemma tgtTri_ne_nil (k : ℕ) : tgtTri (k + 1) ≠ [] := by
  intro h
  have := tgtTri_length (k + 1)
  rw [h] at this
  simp at this
  omega

lemma mem_srcTri {x k : ℕ} (hx : x ∈ srcTri k) : 1 ≤ x ∧ x ≤ k := by
  simp only [srcTri, List.mem_flatten, List.mem_map] at hx
  obtain ⟨l, ⟨i, hi, rfl⟩, hxl⟩ := hx
  have hxi := List.eq_of_mem_replicate hxl
  subst hxi
  rw [List.mem_range'_1] at hi
  omega

lemma mem_tgtTri {x k : ℕ} (hx : x ∈ tgtTri k) : x < k := by
  simp only [tgtTri, List.mem_flatten, List.mem_map] at hx
  obtain ⟨l, ⟨i, hi, rfl⟩, hxl⟩ := hx
  rw [List.mem_range] at hxl
  rw [List.mem_range'_1] at hi
  omega

lemma zip_replicate_range (c k : ℕ) :
    (List.replicate k c).zip (List.range k) = (List.range k).map (fun j => (c, j)) := by
  induction k with
  | zero => rfl
  | succ k ih =>
    rw [List.replicate_succ', List.range_succ,
      List.zip_append (by simp), ih, List.map_append]
    rfl

lemma tri_zip (k : ℕ) :
    (srcTri k).zip (tgtTri k) =
      ((List.range' 1 k).map (fun i => (List.range i).map (fun j => (i, j)))).flatten := by
  induction k with
  | zero => rfl
  | succ k ih =>
    have h := @List.range'_concat 1 1 k
    rw [srcTri_succ, tgtTri_succ,
      List.zip_append (by rw [srcTri_length, tgtTri_length]), ih,
      zip_replicate_range, h]
    simp [Nat.add_comm]

/-- **C1** (counterexample).  At node count `n = 3` the Pair Index Builder
returns `2` pairs, whereas the claimed count `C(n-2, 2) + (n-2)` equals `1`:
the appended final pair is *not* included in that formula. -/
theorem pairIndices_count_claim_false :
    (pairIndices 3).1.length = 2 ∧ Nat.choose (3 - 2) 2 + (3 - 2) = 1 := by
  decide

/-- **C1** (amended).  For node count `n > 2` the two index tables zip to
exactly the strictly-lower-triangular enumeration (source `i` from `1` to
`n-2`, target `j` from `0` to `i-1`) *followed by one appended final pair
`(n-1, n-1)`*; consequently they have `C(n-2, 2) + (n-2) + 1` entries each
(one more than claimed), and every entry lies in `[0, n-1]`. -/
theorem pairIndices_enumeration (n : ℕ) (h : 2 < n) :
    (pairIndices n).1.zip (pairIndices n).2 = specPairEnum n ++ [(n - 1, n - 1)] ∧
    (pairIndices n).1.length = Nat.choose (n - 2) 2 + (n - 2) + 1 ∧
    (pairIndices n).2.length = Nat.choose (n - 2) 2 + (n - 2) + 1 ∧
    (∀ x ∈ (pairIndices n).1, x ≤ n - 1) ∧ (∀ x ∈ (pairIndices n).2, x ≤ n - 1) := by
  obtain ⟨k, rfl⟩ : ∃ k, n = k + 3 := ⟨n - 3, by omega⟩
  have hn2 : k + 3 - 2 = k + 1 := by omega
  have hn1 : k + 3 - 1 = k + 2 := by omega
  have hsrc : src_nodes_indices (k + 3) = srcTri (k + 1) ++ [k + 2] := by
    rw [src_nodes_indices]
    simp only [hn2, if_pos (by omega : 2 < k + 3), if_neg (srcTri_ne_nil k),
      srcTri_getLastD_succ]
  have htgt : tgt_nodes_indices (k + 3) = tgtTri (k + 1) ++ [k + 2] := by
    rw [tgt_nodes_indices]
    simp only [hn2, if_pos (by omega : 2 < k + 3), if_neg (tgtTri_ne_nil k), hsrc,
      List.getLastD_concat]
  refine ⟨?_, ?_, ?_, ?_, ?_⟩
  · show (src_nodes_indices (k + 3)).zip (tgt_nodes_indices (k + 3)) = _
    rw [hsrc, htgt, List.zip_append (by rw [srcTri_length, tgtTri_length]), tri_zip,
      specPairEnum, hn2, hn1]
    rfl
  · show (src_nodes_indices (k + 3)).length = _
    rw [hsrc, List.length_append, srcTri_length, hn2]
    rfl
  · show (tgt_nodes_indices (k + 3)).length = _
    rw [htgt, List.length_append, tgtTri_length, hn2]
    rfl
  · show ∀ x ∈ src_nodes_indices (k + 3), x ≤ k + 3 - 1
    rw [hsrc]
    intro x hx
    rcases List.mem_append.mp hx with hx | hx
    · have := mem_srcTri hx; omega
    · simp at hx; omega
  · show ∀ x ∈ tgt_nodes_indices (k + 3), x ≤ k + 3 - 1
    rw [htgt]
    intro x hx
    rcases List.mem_append.mp hx with hx | hx
    · have := mem_tgtTri hx; omega
    · simp at hx; omega

/-- Witness for `pairIndices_enumeration` at `n = 4`. -/
theorem pairIndices_enumeration_witness :
    (pairIndices 4).1.zip (pairIndices 4).2 = specPairEnum 4 ++ [(4 - 1, 4 - 1)] :=
  (pairIndices_enumeration 4 (by decide)).1

/-- **C2**.  For node count `n ≤ 2`, both tables degenerate to the single
trivial pair `(0, 0)` (models.py 507-514, the `else` branches). -/
theorem pairIndices_degenerate (n : ℕ) (h : n ≤ 2) : pairIndices n = ([0], [0]) := by
  interval_cases n <;> decide

/-- Witness for `pairIndices_degenerate` at `n = 2`. -/
theorem pairIndices_degenerate_witness : pairIndices 2 = ([0], [0]) :=
  pairIndices_degenerate 2 (by decide)

/-! ## Structural Attention Mask Builder

Embedding of `get_attention_mask` (models.py lines 36-62).  The mask is
represented as a function `ℕ → ℕ → ℕ → Bool` (batch, row, column), built by
folding the in-place tensor updates of the source in program order:

1. text rows, text columns and the diagonal are set true (lines 38-41);
2. each position enumerated by `torch.where(input_ids == 0)` has its row
   and column forced false (lines 43-46);
3. each adjacency entry enumerated by `torch.where(adj_masks)` paints its
   rectangular span block true, skipping entries whose node index falls
   outside the node-position table (lines 48-60).

`torch.where` enumerates true coordinates in lexicographic order, which the
range/filterMap constructions below reproduce. -/

/-- Adjacency-tensor read with out-of-range defaulting to `false`. -/
def adjGet (adj : List (List (List Bool))) (b u v : ℕ) : Bool :=
  ((adj.getD b []).getD u []).getD v false

/-- The coordinate list produced by `torch.where(adj_masks)`
(lexicographic order of true entries). -/
def whereTrue3 (adj : List (List (List Bool))) : List (ℕ × ℕ × ℕ) :=
  ((List.range adj.length).map (fun b =>
    ((List.range (adj.getD b []).length).map (fun u =>
      (List.range ((adj.getD b []).getD u []).length).filterMap (fun v =>
        if ((adj.getD b []).getD u []).getD v false then some (b, u, v)
        else none))).flatten)).flatten

/-- The coordinate list produced by `torch.where(input_ids == 0)`:
the pad positions, in lexicographic order.  The pad token id is `0`
(models.py line 43 compares `input_ids == 0`). -/
def padPositions (ids : List (List ℕ)) : List (ℕ × ℕ) :=
  ((List.range ids.length).map (fun b =>
    (List.range (ids.getD b []).length).filterMap (fun p =>
      if (ids.getD b []).getD p 1 = 0 then some (b, p) else none))).flatten

/-- Whether `(b, p)` is a pad position of the joint token sequence. -/
def isPad (ids : List (List ℕ)) (b p : ℕ) : Bool :=
  (ids.getD b []).getD p 1 == 0

/-- The initial mask of lines 38-41: text rows true, text columns true,
diagonal true, everything else false. -/
def maskInitB (textLen i j : ℕ) : Bool :=
  decide (i < textLen) || decide (j < textLen) || decide (i = j)

/-- One pad-isolation step of lines 44-46: row `p` and column `p` of batch
element `b` are forced false. -/
def applyPadStep (m : ℕ → ℕ → ℕ → Bool) (bp : ℕ × ℕ) : ℕ → ℕ → ℕ → Bool :=
  fun b i j => if b = bp.1 ∧ (i = bp.2 ∨ j = bp.2) then false else m b i j

/-- Whether adjacency coordinate `t = (b', u, v)` paints mask entry
`(b, i, j)`: the batch indices agree, both node indices are inside the
node-position table (otherwise line 50-51 `continue`s), and `i`, `j` fall
inside the `text_len`-shifted spans of `u` and `v` respectively
(lines 53-60). -/
def coversB (np : List (List (ℕ × ℕ))) (tl : ℕ) (t : ℕ × ℕ × ℕ) (b i j : ℕ) : Bool :=
  let npb := np.getD t.1 []
  decide (t.2.1 < npb.length) && decide (t.2.2 < npb.length) && decide (b = t.1) &&
    decide ((npb.getD t.2.1 (0, 0)).1 + tl ≤ i) &&
    decide (i < (npb.getD t.2.1 (0, 0)).2 + tl) &&
    decide ((npb.getD t.2.2 (0, 0)).1 + tl ≤ j) &&
    decide (j < (npb.getD t.2.2 (0, 0)).2 + tl)

/-- One adjacency-painting step of lines 48-60. -/
def applyAdjStep (np : List (List (ℕ × ℕ))) (tl : ℕ)
    (m : ℕ → ℕ → ℕ → Bool) (t : ℕ × ℕ × ℕ) : ℕ → ℕ → ℕ → Bool :=
  fun b i j => if coversB np tl t b i j then true else m b i j

/-- `get_attention_mask(adj_masks, node_pos, input_ids, text_len)`
(models.py lines 36-62). -/
def get_attention_mask (adj : List (List (List Bool))) (np : List (List (ℕ × ℕ)))
    (ids : List (List ℕ)) (tl : ℕ) : ℕ → ℕ → ℕ → Bool :=
  let m0 : ℕ → ℕ → ℕ → Bool := fun _ i j => maskInitB tl i j
  let m1 := (padPositions ids).foldl applyPadStep m0
  (whereTrue3 adj).foldl (applyAdjStep np tl) m1

/-- Whether some adjacency coordinate paints entry `(b, i, j)`. -/
def paintedAt (adj : List (List (List Bool))) (np : List (List (ℕ × ℕ)))
    (tl : ℕ) (b i j : ℕ) : Bool :=
  (whereTrue3 adj).any (fun t => coversB np tl t b i j)

lemma foldl_applyPadStep (l : List (ℕ × ℕ)) (m : ℕ → ℕ → ℕ → Bool) (b i j : ℕ) :
    l.foldl applyPadStep m b i j =
      (m b i j && !(l.any fun bp => decide (b = bp.1) && (decide (i = bp.2) || decide (j = bp.2)))) := by
  induction l generalizing m with
  | nil => simp
  | cons hd tl ih =>
    rw [List.foldl_cons, ih, List.any_cons]
    simp only [applyPadStep]
    by_cases hb : b = hd.1 <;> by_cases hi : i = hd.2 <;> by_cases hj : j = hd.2 <;>
      simp [hb, hi, hj]

lemma foldl_applyAdjStep (np : List (List (ℕ × ℕ))) (tl : ℕ)
    (l : List (ℕ × ℕ × ℕ)) (m : ℕ → ℕ → ℕ → Bool) (b i j : ℕ) :
    l.foldl (applyAdjStep np tl) m b i j =
      ((l.any fun t => coversB np tl t b i j) || m b i j) := by
  induction l generalizing m with
  | nil => simp
  | cons hd tail ih =>
    rw [List.foldl_cons, ih, List.any_cons]
    simp only [applyAdjStep]
    by_cases hc : coversB np tl hd b i j <;> simp [hc]

lemma mem_padPositions {ids : List (List ℕ)} {b p : ℕ} :
    (b, p) ∈ padPositions ids ↔ isPad ids b p = true := by
  simp only [padPositions, List.mem_flatten, List.mem_map, isPad, beq_iff_eq]
  constructor
  · rintro ⟨l, ⟨b', hb', rfl⟩, hmem⟩
    simp only [List.mem_filterMap, List.mem_range] at hmem
    obtain ⟨p', hp', hif⟩ := hmem
    by_cases h0 : (ids.getD b' []).getD p' 1 = 0
    · rw [if_pos h0] at hif
      cases hif
      exact h0
    · rw [if_neg h0] at hif
      exact absurd hif (by simp)
  · intro h0
    have hp : p < (ids.getD b []).length := by
      by_contra hge
      rw [List.getD_eq_default _ _ (by omega)] at h0
      simp at h0
    have hb : b < ids.length := by
      by_contra hge
      have hnil : ids.getD b [] = [] := List.getD_eq_default _ _ (by omega)
      rw [hnil] at hp
      simp at hp
    refine ⟨_, ⟨b, List.mem_range.mpr hb, rfl⟩, ?_⟩
    simp only [List.mem_filterMap, List.mem_range]
    exact ⟨p, hp, by rw [if_pos h0]⟩

lemma padAny_eq (ids : List (List ℕ)) (b i j : ℕ) :
    ((padPositions ids).any fun bp =>
        decide (b = bp.1) && (decide (i = bp.2) || decide (j = bp.2)))
      = (isPad ids b i || isPad ids b j) := by
  rw [Bool.eq_iff_iff]
  simp only [List.any_eq_true, Bool.and_eq_true, Bool.or_eq_true, decide_eq_true_eq]
  constructor
  · rintro ⟨⟨b', p⟩, hmem, rfl, hp | hp⟩ <;> subst hp
    · exact Or.inl (mem_padPositions.mp hmem)
    · exact Or.inr (mem_padPositions.mp hmem)
  · rintro (h | h)
    · exact ⟨(b, i), mem_padPositions.mpr h, rfl, Or.inl rfl⟩
    · exact ⟨(b, j), mem_padPositions.mpr h, rfl, Or.inr rfl⟩

/-- Closed form of the mask builder: an entry is true iff it is painted by
some adjacency block, or it survives from the text/diagonal initialization
with neither coordinate being a pad position. -/
lemma get_attention_mask_closedForm (adj : List (List (List Bool)))
    (np : List (List (ℕ × ℕ))) (ids : List (List ℕ)) (tl b i j : ℕ) :
    get_attention_mask adj np ids tl b i j =
      (paintedAt adj np tl b i j ||
        (maskInitB tl i j && !isPad ids b i && !isPad ids b j)) := by
  rw [get_attention_mask, foldl_applyAdjStep, foldl_applyPadStep, padAny_eq, paintedAt]
  cases paintedAt adj np tl b i j <;>
    cases maskInitB tl i j <;>
    cases isPad ids b i <;>
    cases isPad ids b j <;> rfl

lemma mem_whereTrue3 {adj : List (List (List Bool))} {b u v : ℕ} :
    (b, u, v) ∈ whereTrue3 adj ↔ adjGet adj b u v = true := by
  simp only [whereTrue3, List.mem_flatten, List.mem_map]
  constructor
  · rintro ⟨l, ⟨b', hb', rfl⟩, hmem⟩
    simp only [List.mem_flatten, List.mem_map] at hmem
    obtain ⟨l2, ⟨u', hu', rfl⟩, hmem2⟩ := hmem
    simp only [List.mem_filterMap, List.mem_range] at hmem2
    obtain ⟨v', hv', hif⟩ := hmem2
    by_cases h0 : ((adj.getD b' []).getD u' []).getD v' false = true
    · rw [if_pos h0] at hif
      cases hif
      exact h0
    · rw [if_neg h0] at hif
      exact absurd hif (by simp)
  · intro h0
    simp only [adjGet] at h0
    have hv : v < ((adj.getD b []).getD u []).length := by
      by_contra hge
      rw [List.getD_eq_default _ _ (by omega)] at h0
      simp at h0
    have hu : u < (adj.getD b []).length := by
      by_contra hge
      have hnil : (adj.getD b []).getD u [] = [] := List.getD_eq_default _ _ (by omega)
      rw [hnil] at hv
      simp at hv
    have hb : b < adj.length := by
      by_contra hge
      have hnil : adj.getD b [] = [] := List.getD_eq_default _ _ (by omega)
      rw [hnil] at hu
      simp at hu
    refine ⟨_, ⟨b, List.mem_range.mpr hb, rfl⟩, ?_⟩
    simp only [List.mem_flatten, List.mem_map]
    refine ⟨_, ⟨u, List.mem_range.mpr hu, rfl⟩, ?_⟩
    simp only [List.mem_filterMap, List.mem_range]
    exact ⟨v, hv, by rw [if_pos h0]⟩

lemma paintedAt_iff (adj : List (List (List Bool))) (np : List (List (ℕ × ℕ)))
    (tl b i j : ℕ) :
    paintedAt adj np tl b i j = true ↔
      ∃ b' u v, adjGet adj b' u v = true ∧ coversB np tl (b', u, v) b i j = true := by
  rw [paintedAt, List.any_eq_true]
  constructor
  · rintro ⟨⟨b', u, v⟩, hmem, hc⟩
    exact ⟨b', u, v, mem_whereTrue3.mp hmem, hc⟩
  · rintro ⟨b', u, v, ha, hc⟩
    exact ⟨(b', u, v), mem_whereTrue3.mpr ha, hc⟩

/-- Whether position `p` lies inside the `text_len`-shifted span of node
`u` of batch element `b`. -/
def spanMemB (np : List (List (ℕ × ℕ))) (tl b u p : ℕ) : Bool :=
  decide (((np.getD b []).getD u (0, 0)).1 + tl ≤ p) &&
    decide (p < ((np.getD b []).getD u (0, 0)).2 + tl)

/-- **C4** (counterexample).  With `input_ids = [[5, 0]]` and
`text_len = 1`, row `0` is a text row but `mask[0, 0, 1]` is `false`:
pad-column isolation (position `1` is pad) overrides the text rule, so the
text rows are *not* all-true. -/
theorem mask_text_claim_false :
    (0 : ℕ) < 1 ∧ get_attention_mask [] [[]] [[5, 0]] 1 0 0 1 = false := by
  decide

/-- **C4** (amended).  Text rows and text columns of the mask are true at
every entry whose two coordinates are both non-pad positions; pad rows and
pad columns are excluded (they are forced false by the pad-isolation step,
lines 43-46, which runs after the text initialization). -/
theorem mask_text_visibility (adj : List (List (List Bool)))
    (np : List (List (ℕ × ℕ))) (ids : List (List ℕ)) (tl b i j : ℕ)
    (hb : b < ids.length)
    (hi : i < (ids.getD b []).length) (hj : j < (ids.getD b []).length)
    (htext : i < tl ∨ j < tl)
    (hpi : isPad ids b i = false) (hpj : isPad ids b j = false) :
    get_attention_mask adj np ids tl b i j = true := by
  rw [get_attention_mask_closedForm, hpi, hpj]
  have hinit : maskInitB tl i j = true := by
    rcases htext with h | h <;> simp [maskInitB, h]
  simp [hinit]

/-- Witness for `mask_text_visibility`. -/
theorem mask_text_visibility_witness :
    get_attention_mask [] [[]] [[5, 7]] 1 0 0 1 = true :=
  mask_text_visibility [] [[]] [[5, 7]] 1 0 0 1 (by decide) (by decide) (by decide)
    (Or.inl (by decide)) (by decide) (by decide)

/-- **C3** (counterexample).  Position `(0, 1)` is a pad position, yet the
adjacency painting of the self-loop of a node whose span `(0, 2)` covers
the pad position sets `mask[0, 1, 0] = true`: the painting loop (lines
48-60) runs after pad isolation and can reintroduce a true entry in a pad
row. -/
theorem mask_pad_isolation_claim_false :
    isPad [[5, 0]] 0 1 = true ∧
    get_attention_mask [[[true]]] [[(0, 2)]] [[5, 0]] 0 0 1 0 = true := by
  decide

/-- **C3** (amended).  Provided every node span (shifted by `text_len`)
avoids every pad position of its batch element — the situation the spec
asserts for well-formed inputs — every pad position has an all-false row
and an all-false column (and in particular a false diagonal entry). -/
theorem mask_pad_isolation (adj : List (List (List Bool)))
    (np : List (List (ℕ × ℕ))) (ids : List (List ℕ)) (tl : ℕ)
    (H : ∀ bp ∈ padPositions ids, ∀ u, u < (np.getD bp.1 []).length →
      spanMemB np tl bp.1 u bp.2 = false) :
    ∀ b p, isPad ids b p = true →
      (∀ j, get_attention_mask adj np ids tl b p j = false) ∧
      (∀ i, get_attention_mask adj np ids tl b i p = false) := by
  intro b p hpad
  have hmem : (b, p) ∈ padPositions ids := mem_padPositions.mpr hpad
  constructor
  · intro j
    rw [get_attention_mask_closedForm, hpad]
    have hpaint : paintedAt adj np tl b p j = false := by
      by_contra hne
      obtain ⟨b', u, v, _, hc⟩ :=
        (paintedAt_iff adj np tl b p j).mp (by revert hne; cases paintedAt adj np tl b p j <;> simp)
      simp only [coversB, Bool.and_eq_true, decide_eq_true_eq] at hc
      obtain ⟨⟨⟨⟨⟨⟨hu, hv⟩, hbeq⟩, hs1⟩, hs2⟩, _⟩, _⟩ := hc
      subst hbeq
      have := H (b, p) hmem u hu
      simp only [spanMemB, Bool.and_eq_false_iff, decide_eq_false_iff_not] at this
      rcases this with h | h <;> omega
    rw [hpaint]
    simp
  · intro i
    rw [get_attention_mask_closedForm, hpad]
    have hpaint : paintedAt adj np tl b i p = false := by
      by_contra hne
      obtain ⟨b', u, v, _, hc⟩ :=
        (paintedAt_iff adj np tl b i p).mp (by revert hne; cases paintedAt adj np tl b i p <;> simp)
      simp only [coversB, Bool.and_eq_true, decide_eq_true_eq] at hc
      obtain ⟨⟨⟨⟨⟨⟨hu, hv⟩, hbeq⟩, _⟩, _⟩, hs3⟩, hs4⟩ := hc
      subst hbeq
      have := H (b, p) hmem v hv
      simp only [spanMemB, Bool.and_eq_false_iff, decide_eq_false_iff_not] at this
      rcases this with h | h <;> omega
    rw [hpaint]
    simp

/-- Witness for `mask_pad_isolation`: pad position `(0, 1)` with a node
span `(0, 1)` that avoids it. -/
theorem mask_pad_isolation_witness :
    get_attention_mask [[[true]]] [[(0, 1)]] [[5, 0]] 0 0 1 0 = false ∧
    get_attention_mask [[[true]]] [[(0, 1)]] [[5, 0]] 0 0 0 1 = false :=
  ⟨(mask_pad_isolation [[[true]]] [[(0, 1)]] [[5, 0]] 0 (by decide) 0 1 (by decide)).1 0,
   (mask_pad_isolation [[[true]]] [[(0, 1)]] [[5, 0]] 0 (by decide) 0 1 (by decide)).2 0⟩

/-- Which same-node span block covers `(i, j)`: some node `u` of batch
element `b` carries a (self-loop) adjacency entry `(u, u)` and both `i`
and `j` lie in its shifted span. -/
def selfBlockB (adj : List (List (List Bool))) (np : List (List (ℕ × ℕ)))
    (tl b i j : ℕ) : Bool :=
  (List.range (np.getD b []).length).any fun u =>
    adjGet adj b u u && spanMemB np tl b u i && spanMemB np tl b u j

/-- **C5** (counterexample).  A graph whose adjacency indicator is exactly
the diagonal (`whereTrue3 = [(0,0,0)]`, one node, self-loop only) with a
two-token node span produces a true off-diagonal entry `(0, 1)` outside
the text block (`text_len = 0`): self-loop painting fills the whole span
square, not just diagonal entries. -/
theorem mask_selfloop_claim_false :
    whereTrue3 [[[true]]] = [(0, 0, 0)] ∧
    get_attention_mask [[[true]]] [[(0, 2)]] [[3, 3]] 0 0 0 1 = true := by
  decide

/-- **C5** (amended).  For an adjacency indicator containing only diagonal
entries, the mask outside the text rows and columns is true exactly on
same-node span blocks (token pairs covered by a self-looped node's span)
together with the non-pad diagonal entries. -/
theorem mask_selfloop_diag (adj : List (List (List Bool)))
    (np : List (List (ℕ × ℕ))) (ids : List (List ℕ)) (tl : ℕ)
    (Hdiag : ∀ t ∈ whereTrue3 adj, t.2.1 = t.2.2)
    (b i j : ℕ) (hi : tl ≤ i) (hj : tl ≤ j) :
    get_attention_mask adj np ids tl b i j =
      (selfBlockB adj np tl b i j || (decide (i = j) && !isPad ids b i)) := by
  rw [get_attention_mask_closedForm]
  have hpaint : paintedAt adj np tl b i j = selfBlockB adj np tl b i j := by
    rw [Bool.eq_iff_iff, paintedAt_iff]
    simp only [selfBlockB, List.any_eq_true, List.mem_range, Bool.and_eq_true]
    constructor
    · rintro ⟨b', u, v, ha, hc⟩
      have huv : u = v := Hdiag (b', u, v) (mem_whereTrue3.mpr ha)
      subst huv
      simp only [coversB, Bool.and_eq_true, decide_eq_true_eq] at hc
      obtain ⟨⟨⟨⟨⟨⟨hu, _⟩, hbeq⟩, hs1⟩, hs2⟩, hs3⟩, hs4⟩ := hc
      subst hbeq
      refine ⟨u, hu, ⟨ha, ?_⟩, ?_⟩ <;>
        simp only [spanMemB, Bool.and_eq_true, decide_eq_true_eq]
      · exact ⟨hs1, hs2⟩
      · exact ⟨hs3, hs4⟩
    · rintro ⟨u, hu, ⟨ha, hsi⟩, hsj⟩
      refine ⟨b, u, u, ha, ?_⟩
      simp only [spanMemB, Bool.and_eq_true, decide_eq_true_eq] at hsi hsj
      simp only [coversB, Bool.and_eq_true, decide_eq_true_eq]
      exact ⟨⟨⟨⟨⟨⟨hu, hu⟩, trivial⟩, hsi.1⟩, hsi.2⟩, hsj.1⟩, hsj.2⟩
  rw [hpaint]
  have hinit : maskInitB tl i j = decide (i = j) := by
    simp [maskInitB, Nat.not_lt_of_le, hi, hj, decide_eq_false, Nat.not_lt.mpr]
  rw [hinit]
  by_cases hij : i = j
  · subst hij
    cases isPad ids b i <;> simp
  · simp [hij]

/-- Witness for `mask_selfloop_diag`. -/
theorem mask_selfloop_diag_witness :
    get_attention_mask [[[true]]] [[(0, 1)]] [[3]] 0 0 0 0 =
      (selfBlockB [[[true]]] [[(0, 1)]] 0 0 0 0 ||
        (decide ((0 : ℕ) = 0) && !isPad [[3]] 0 0)) :=
  mask_selfloop_diag [[[true]]] [[(0, 1)]] [[3]] 0 (by decide) 0 0 0
    (by decide) (by decide)

/-- Clearing one adjacency entry to `false` (out-of-range indices leave
the tensor unchanged). -/
def clearEntry (adj : List (List (List Bool))) (b u v : ℕ) : List (List (List Bool)) :=
  adj.set b ((adj.getD b []).set u (((adj.getD b []).getD u []).set v false))

lemma getD_set {α : Type} (l : List α) (n m : ℕ) (a : α) (d : α) :
    (l.set n a).getD m d = if n = m ∧ n < l.length then a else l.getD m d := by
  rw [List.getD_eq_getElem?_getD, List.getElem?_set, List.getD_eq_getElem?_getD]
  by_cases h1 : n = m
  · subst h1
    by_cases h2 : n < l.length
    · simp [h2]
    · simp [h2, List.getElem?_eq_none (show l.length ≤ n by omega)]
  · simp [h1]

lemma adjGet_clearEntry (adj : List (List (List Bool))) (b0 u0 v0 b u v : ℕ) :
    adjGet (clearEntry adj b0 u0 v0) b u v =
      if b = b0 ∧ u = u0 ∧ v = v0 then false else adjGet adj b u v := by
  unfold clearEntry adjGet
  rw [getD_set]
  by_cases hb : b0 = b ∧ b0 < adj.length
  · rw [if_pos hb]
    obtain ⟨rfl, hblt⟩ := hb
    rw [getD_set]
    by_cases hu : u0 = u ∧ u0 < (adj.getD b0 []).length
    · rw [if_pos hu]
      obtain ⟨rfl, hult⟩ := hu
      rw [getD_set]
      by_cases hv : v0 = v ∧ v0 < ((adj.getD b0 []).getD u0 []).length
      · rw [if_pos hv]
        obtain ⟨rfl, hvlt⟩ := hv
        rw [if_pos ⟨rfl, rfl, rfl⟩]
      · rw [if_neg hv]
        by_cases hvv : v = v0
        · subst hvv
          rw [if_pos ⟨rfl, rfl, rfl⟩]
          have : ((adj.getD b0 []).getD u0 []).length ≤ v := by
            rcases not_and_or.mp hv with h | h
            · exact absurd rfl h
            · omega
          exact List.getD_eq_default _ _ this
        · rw [if_neg (by tauto)]
    · rw [if_neg hu]
      by_cases huu : u = u0
      · subst huu
        have hlen : (adj.getD b0 []).length ≤ u := by
          rcases not_and_or.mp hu with h | h
          · exact absurd rfl h
          · omega
        have hnil : (adj.getD b0 []).getD u [] = [] := List.getD_eq_default _ _ hlen
        rw [hnil]
        by_cases hvv : v = v0
        · subst hvv
          rw [if_pos ⟨rfl, rfl, rfl⟩]
          simp
        · rw [if_neg (by tauto)]
      · rw [if_neg (by tauto)]
  · rw [if_neg hb]
    by_cases hbb : b = b0
    · subst hbb
      have hlen : adj.length ≤ b := by
        rcases not_and_or.mp hb with h | h
        · exact absurd rfl h
        · omega
      have hnil : adj.getD b [] = [] := List.getD_eq_default _ _ hlen
      rw [hnil]
      by_cases huv : u = u0 ∧ v = v0
      · rw [if_pos ⟨rfl, huv.1, huv.2⟩]
        simp
      · rw [if_neg (by tauto)]
    · rw [if_neg (by tauto)]

/-- **C10**.  An adjacency entry `(b0, u0, v0)` whose node indices are not
both valid indices into the node-position table of batch element `b0` is
skipped silently (lines 50-51): the produced mask is identical to the one
built from the adjacency tensor with that entry cleared. -/
theorem mask_skips_out_of_range (adj : List (List (List Bool)))
    (np : List (List (ℕ × ℕ))) (ids : List (List ℕ)) (tl b0 u0 v0 : ℕ)
    (h : (np.getD b0 []).length ≤ u0 ∨ (np.getD b0 []).length ≤ v0) :
    ∀ b i j, get_attention_mask adj np ids tl b i j =
      get_attention_mask (clearEntry adj b0 u0 v0) np ids tl b i j := by
  intro b i j
  rw [get_attention_mask_closedForm, get_attention_mask_closedForm]
  suffices hp : paintedAt adj np tl b i j = paintedAt (clearEntry adj b0 u0 v0) np tl b i j by
    rw [hp]
  rw [Bool.eq_iff_iff, paintedAt_iff, paintedAt_iff]
  constructor
  · rintro ⟨b', u, v, ha, hc⟩
    refine ⟨b', u, v, ?_, hc⟩
    rw [adjGet_clearEntry]
    by_cases heq : b' = b0 ∧ u = u0 ∧ v = v0
    · exfalso
      obtain ⟨rfl, rfl, rfl⟩ := heq
      simp only [coversB, Bool.and_eq_true, decide_eq_true_eq] at hc
      obtain ⟨⟨⟨⟨⟨⟨hu, hv⟩, _⟩, _⟩, _⟩, _⟩, _⟩ := hc
      omega
    · rw [if_neg heq]
      exact ha
  · rintro ⟨b', u, v, ha, hc⟩
    rw [adjGet_clearEntry] at ha
    by_cases heq : b' = b0 ∧ u = u0 ∧ v = v0
    · rw [if_pos heq] at ha
      exact absurd ha (by simp)
    · rw [if_neg heq] at ha
      exact ⟨b', u, v, ha, hc⟩

/-- Witness for `mask_skips_out_of_range`: the entry `(0, 0, 1)` refers to
node `1`, but the node-position table has a single node. -/
theorem mask_skips_out_of_range_witness :
    get_attention_mask [[[false, true]]] [[(0, 1)]] [[7]] 0 0 0 0 =
      get_attention_mask (clearEntry [[[false, true]]] 0 0 1) [[(0, 1)]] [[7]] 0 0 0 0 :=
  mask_skips_out_of_range [[[false, true]]] [[(0, 1)]] [[7]] 0 0 0 1 (by decide) 0 0 0

/-! ## Loss Aggregator

Embedding of `GraphTrans.compute_loss` (models.py lines 106-131).  The two
loss modules are constructed in `GraphTrans.__init__` (lines 103-104) as
`nn.CrossEntropyLoss(reduction="sum", ignore_index=dict.pad())`; that
external torch primitive is embedded by its documented semantics: the sum,
over positions whose target is not the ignored index, of
`log (Σ_c exp logits_c) - logits_target`.  `compute_loss` flattens the
`bsz × len` prediction grids (the `view` calls of lines 119-126), applies
the two sums, adds them and divides by the batch size. -/

/-- Per-position cross entropy `-log softmax(logits)[y]`. -/
noncomputable def crossEntropy (logits : List ℝ) (y : ℕ) : ℝ :=
  Real.log ((logits.map Real.exp).sum) - logits.getD y 0

/-- `nn.CrossEntropyLoss(reduction="sum", ignore_index=ignoreIdx)` applied
to a flat batch of logit rows and target ids.  Modelled from the torch
documentation: positions whose target equals `ignoreIdx` contribute `0`,
all others their cross entropy; the contributions are summed. -/
noncomputable def xentSum (ignoreIdx : ℕ) (outputs : List (List ℝ)) (targets : List ℕ) : ℝ :=
  ((targets.zip outputs).map
    (fun p => if p.1 = ignoreIdx then 0 else crossEntropy p.2 p.1)).sum

/-- `GraphTrans.compute_loss` (models.py 106-131): flatten both grids,
sum-reduced cross entropy on each with its pad index ignored, add, divide
by the batch size. -/
noncomputable def compute_loss (nodePad edgePad : ℕ) (nodes : List (List ℕ))
    (node_outputs : List (List (List ℝ))) (edges : List (List ℕ))
    (edge_outputs : List (List (List ℝ))) : ℝ :=
  let bsz := nodes.length
  let node_loss := xentSum nodePad node_outputs.flatten nodes.flatten
  let edge_loss := xentSum edgePad edge_outputs.flatten edges.flatten
  (node_loss + edge_loss) / (bsz : ℝ)

/-- The per-batch-element, per-position sum of cross entropies over the
positions whose label is not the pad id. -/
noncomputable def ceSumRows (pad : ℕ) (labels : List (List ℕ)) (outs : List (List (List ℝ))) : ℝ :=
  ((labels.zip outs).map (fun bo =>
    ((bo.1.zip bo.2).map
      (fun p => if p.1 = pad then 0 else crossEntropy p.2 p.1)).sum)).sum

lemma xentSum_flatten (pad : ℕ) (labels : List (List ℕ))
    (outs : List (List (List ℝ)))
    (h : List.Forall₂ (fun (r : List ℕ) (o : List (List ℝ)) => r.length = o.length)
      labels outs) :
    xentSum pad outs.flatten labels.flatten = ceSumRows pad labels outs := by
  induction h with
  | nil => simp [xentSum, ceSumRows]
  | cons hlen htail ih =>
    simp only [List.flatten_cons, xentSum, ceSumRows, List.zip_cons_cons,
      List.map_cons, List.sum_cons] at *
    rw [List.zip_append hlen, List.map_append, List.sum_append, ih]

lemma xentSum_all_pad (pad : ℕ) (outputs : List (List ℝ)) (targets : List ℕ)
    (h : ∀ x ∈ targets, x = pad) : xentSum pad outputs targets = 0 := by
  apply List.sum_eq_zero
  intro y hy
  simp only [List.mem_map] at hy
  obtain ⟨p, hp, rfl⟩ := hy
  have := h p.1 (List.of_mem_zip hp).1
  rw [if_pos this]

/-- **C6**.  `compute_loss` returns the sum, over all positions whose node
label is not the node pad id, of the node cross entropy, plus the same sum
for edges with the edge pad id, divided by the batch size; and when every
node label is pad the node branch contributes exactly `0`, leaving only
the edge sum over the batch size. -/
theorem compute_loss_correct (nodePad edgePad : ℕ) (nodes : List (List ℕ))
    (node_outputs : List (List (List ℝ))) (edges : List (List ℕ))
    (edge_outputs : List (List (List ℝ)))
    (h1 : List.Forall₂ (fun (r : List ℕ) (o : List (List ℝ)) => r.length = o.length)
      nodes node_outputs)
    (h2 : List.Forall₂ (fun (r : List ℕ) (o : List (List ℝ)) => r.length = o.length)
      edges edge_outputs) :
    compute_loss nodePad edgePad nodes node_outputs edges edge_outputs =
      (ceSumRows nodePad nodes node_outputs + ceSumRows edgePad edges edge_outputs) /
        (nodes.length : ℝ) ∧
    ((∀ x ∈ nodes.flatten, x = nodePad) →
      compute_loss nodePad edgePad nodes node_outputs edges edge_outputs =
        ceSumRows edgePad edges edge_outputs / (nodes.length : ℝ)) := by
  constructor
  · simp only [compute_loss]
    rw [xentSum_flatten _ _ _ h1, xentSum_flatten _ _ _ h2]
  · intro hall
    simp only [compute_loss]
    rw [xentSum_all_pad _ _ _ hall, xentSum_flatten _ _ _ h2, zero_add]

/-- Witness for `compute_loss_correct`. -/
theorem compute_loss_correct_witness :
    compute_loss 0 0 [[0]] [[[1]]] [[1]] [[[1]]] =
      (ceSumRows 0 [[0]] [[[1]]] + ceSumRows 0 [[1]] [[[1]]]) /
        (([[(0 : ℕ)]] : List (List ℕ)).length : ℝ) :=
  (compute_loss_correct 0 0 [[0]] [[[1]]] [[1]] [[[1]]]
    (List.Forall₂.cons rfl List.Forall₂.nil)
    (List.Forall₂.cons rfl List.Forall₂.nil)).1

/-! ## Shared attention primitive

Embedding of `Attention` (models.py lines 346-390): additive-tanh scoring
(`score`, lines 358-370) followed by `masked_fill_(~mask, -inf)`, softmax,
context `bmm` and the output linear on `[context; inputs]` (lines 372-390).
The `-inf` written by `masked_fill_` is represented by `none : Option ℝ`,
and `exp (-inf) = 0` by `expO none = 0`, matching IEEE evaluation of the
subsequent softmax.  The mask is the two-dimensional validity-mask path of
`forward` (the form the encoder supplies: `input_ids != 0`). -/

/-- Dot product of two real vectors. -/
noncomputable def dotList (x y : List ℝ) : ℝ :=
  ((x.zip y).map (fun p => p.1 * p.2)).sum

/-- `nn.Linear(…, bias=False)`: `x ↦ W x`. -/
noncomputable def linearNB (W : List (List ℝ)) (x : List ℝ) : List ℝ :=
  W.map (fun row => dotList row x)

/-- `nn.Linear(…, bias=True)`: `x ↦ W x + b`. -/
noncomputable def linearB (W : List (List ℝ)) (b : List ℝ) (x : List ℝ) : List ℝ :=
  List.zipWith (· + ·) (W.map (fun row => dotList row x)) b

/-- The learned parameters of one `Attention` module (lines 350-356):
`linear_q` (no bias), `linear_c` (with bias), `v` (a single row, no bias)
and `linear_out` (with bias). -/
structure AttnParams where
  linear_q : List (List ℝ)
  linear_c : List (List ℝ)
  bias_c : List ℝ
  v : List ℝ
  linear_out : List (List ℝ)
  bias_out : List ℝ

/-- `Attention.score` at one query row `q` and one memory row `m`
(lines 358-370): `v ⬝ tanh(W_q q + (W_c m + b_c))`. -/
noncomputable def attnScore (p : AttnParams) (q m : List ℝ) : ℝ :=
  dotList p.v
    ((List.zipWith (· + ·) (linearNB p.linear_q q) (linearB p.linear_c p.bias_c m)).map
      Real.tanh)

/-- `exp` extended to the `-inf` element produced by `masked_fill_`. -/
noncomputable def expO : Option ℝ → ℝ
  | none => 0
  | some x => Real.exp x

/-- Row softmax over scores that may be `-inf`. -/
noncomputable def softmaxO (row : List (Option ℝ)) : List ℝ :=
  row.map (fun x => expO x / (row.map expO).sum)

/-- The pre-softmax score matrix after `masked_fill_(~mask, -inf)`
(lines 374-382), for one batch element: entry `(t, s)` is the score of
query step `t` against memory position `s`, or `none` (= `-inf`) where the
validity mask excludes `s`. -/
noncomputable def maskedAlign1 (p : AttnParams) (inputs mems : List (List ℝ))
    (mask : List Bool) : List (List (Option ℝ)) :=
  inputs.map (fun q =>
    ((mems.map (attnScore p q)).zip mask).map (fun xo => if xo.2 then some xo.1 else none))

/-- `torch.bmm(align_vectors, mems)` for one query row: the
attention-weighted sum of memory rows. -/
noncomputable def weightedSum (w : List ℝ) (mems : List (List ℝ)) : List ℝ :=
  (List.range (mems.getD 0 []).length).map
    (fun d => ((w.zip mems).map (fun p => p.1 * p.2.getD d 0)).sum)

/-- `Attention.forward` for one batch element (lines 372-390): returns
`(attn_h, align_vectors)`. -/
noncomputable def attnForward1 (p : AttnParams) (inputs mems : List (List ℝ))
    (mask : List Bool) : List (List ℝ) × List (List ℝ) :=
  let weights := (maskedAlign1 p inputs mems mask).map softmaxO
  let ctx := weights.map (fun w => weightedSum w mems)
  ((ctx.zip inputs).map (fun ci => linearB p.linear_out p.bias_out (ci.1 ++ ci.2)), weights)

/-- `Attention.forward` over a batch (the batch dimension of the source is
data-parallel: each element is processed independently). -/
noncomputable def attnForwardBatch (p : AttnParams) (inputs mems : List (List (List ℝ)))
    (masks : List (List Bool)) : List (List (List ℝ)) × List (List (List ℝ)) :=
  let per := (inputs.zip (mems.zip masks)).map (fun x => attnForward1 p x.1 x.2.1 x.2.2)
  (per.map Prod.fst, per.map Prod.snd)

/-- The post-softmax attention weight of batch `b`, query step `t`,
memory position `s`. -/
noncomputable def attnWeightsAt (p : AttnParams) (inputs mems : List (List (List ℝ)))
    (masks : List (List Bool)) (b t s : ℕ) : ℝ :=
  (((attnForwardBatch p inputs mems masks).2.getD b []).getD t []).getD s 0

/-- The pre-softmax (masked) score of batch `b`, query step `t`, memory
position `s`. -/
noncomputable def maskedAlignAt (p : AttnParams) (inputs mems : List (List (List ℝ)))
    (masks : List (List Bool)) (b t s : ℕ) : Option ℝ :=
  ((maskedAlign1 p (inputs.getD b []) (mems.getD b []) (masks.getD b [])).getD t []).getD s
    (some 0)

lemma attnForward1_masked_zero (p : AttnParams) (inputs mems : List (List ℝ))
    (mask : List Bool) (t s : ℕ) (ht : t < inputs.length) (hs : s < mask.length)
    (hsm : mems.length = mask.length) (hmask : mask.getD s true = false) :
    ((maskedAlign1 p inputs mems mask).getD t []).getD s (some 0) = none ∧
    ((attnForward1 p inputs mems mask).2.getD t []).getD s 0 = 0 := by
  have hrow : (maskedAlign1 p inputs mems mask).getD t [] =
      ((mems.map (attnScore p inputs[t])).zip mask).map
        (fun xo => if xo.2 then some xo.1 else none) := by
    rw [maskedAlign1, List.getD_eq_getElem?_getD, List.getElem?_map,
      List.getElem?_eq_getElem ht]
    rfl
  have hzlen : s < ((mems.map (attnScore p inputs[t])).zip mask).length := by
    rw [List.length_zip, List.length_map]
    omega
  have hmasks : mask[s] = false := by
    rw [List.getD_eq_getElem?_getD, List.getElem?_eq_getElem hs] at hmask
    exact hmask
  have hentry : (((mems.map (attnScore p inputs[t])).zip mask).map
      (fun xo => if xo.2 then some xo.1 else none)).getD s (some 0) = none := by
    rw [List.getD_eq_getElem?_getD, List.getElem?_map, List.getElem?_eq_getElem hzlen]
    simp only [Option.getD_some, List.getElem_zip, hmasks]
    rfl
  have hE : (((mems.map (attnScore p inputs[t])).zip mask).map
      (fun xo => if xo.2 then some xo.1 else none))[s]? = some none := by
    have h2 := hentry
    rw [List.getD_eq_getElem?_getD] at h2
    cases hcase : (((mems.map (attnScore p inputs[t])).zip mask).map
        (fun xo => if xo.2 then some xo.1 else none))[s]? with
    | none =>
      rw [hcase] at h2
      simp at h2
    | some y =>
      rw [hcase] at h2
      simp at h2
      rw [h2]
  constructor
  · rw [hrow]
    exact hentry
  · have hw : (attnForward1 p inputs mems mask).2.getD t [] =
        softmaxO ((maskedAlign1 p inputs mems mask).getD t []) := by
      show ((maskedAlign1 p inputs mems mask).map softmaxO).getD t [] = _
      have htl : t < (maskedAlign1 p inputs mems mask).length := by
        rw [maskedAlign1, List.length_map]
        exact ht
      rw [List.getD_eq_getElem?_getD, List.getElem?_map, List.getElem?_eq_getElem htl]
      simp [List.getD_eq_getElem?_getD, List.getElem?_eq_getElem htl]
    rw [hw, hrow, softmaxO, List.getD_eq_getElem?_getD, List.getElem?_map, hE]
    simp [expO, zero_div]

/-- **C9**.  In `Attention.forward`, for every batch element and every
query step, every memory position excluded by the validity mask receives a
`-inf` pre-softmax score (`masked_fill_`, line 382) and exactly zero
post-softmax attention weight.  The hypothesis `hvalid` restricts the
statement to rows with at least one valid memory position (with an
all-masked row the floating-point softmax would produce `NaN`, not a
weight distribution). -/
theorem attention_masked_zero (p : AttnParams) (inputs mems : List (List (List ℝ)))
    (masks : List (List Bool)) (b t s : ℕ)
    (hb : b < inputs.length) (hbm : inputs.length = mems.length)
    (hbk : inputs.length = masks.length)
    (ht : t < (inputs.getD b []).length)
    (hs : s < (masks.getD b []).length)
    (hsm : (mems.getD b []).length = (masks.getD b []).length)
    (hmask : (masks.getD b []).getD s true = false)
    (hvalid : ∃ q, q < (masks.getD b []).length ∧ (masks.getD b []).getD q true = true) :
    maskedAlignAt p inputs mems masks b t s = none ∧
    attnWeightsAt p inputs mems masks b t s = 0 := by
  have hbz : b < (inputs.zip (mems.zip masks)).length := by
    rw [List.length_zip, List.length_zip]
    omega
  have hbmem : b < mems.length := by omega
  have hbmask : b < masks.length := by omega
  have hzelem : (inputs.zip (mems.zip masks))[b] =
      (inputs.getD b [], mems.getD b [], masks.getD b []) := by
    rw [List.getElem_zip, List.getElem_zip]
    rw [List.getD_eq_getElem?_getD, List.getElem?_eq_getElem hb,
      List.getD_eq_getElem?_getD, List.getElem?_eq_getElem hbmem,
      List.getD_eq_getElem?_getD, List.getElem?_eq_getElem hbmask]
    rfl
  have hper : (attnForwardBatch p inputs mems masks).2.getD b [] =
      (attnForward1 p (inputs.getD b []) (mems.getD b []) (masks.getD b [])).2 := by
    show (((inputs.zip (mems.zip masks)).map
      (fun x => attnForward1 p x.1 x.2.1 x.2.2)).map Prod.snd).getD b [] = _
    rw [List.map_map, List.getD_eq_getElem?_getD, List.getElem?_map,
      List.getElem?_eq_getElem hbz, hzelem]
    rfl
  have hmain := attnForward1_masked_zero p (inputs.getD b []) (mems.getD b [])
    (masks.getD b []) t s ht hs hsm hmask
  refine ⟨hmain.1, ?_⟩
  rw [attnWeightsAt, hper]
  exact hmain.2

/-- A concrete one-dimensional parameter set used to instantiate the
attention and decoder theorems. -/
noncomputable def attnDemoParams : AttnParams :=
  ⟨[[1]], [[1]], [0], [1], [[1, 1]], [0]⟩

/-- Witness for `attention_masked_zero`: one query, two memory positions,
the second excluded by the validity mask. -/
theorem attention_masked_zero_witness :
    maskedAlignAt attnDemoParams [[[0]]] [[[0], [0]]] [[true, false]] 0 0 1 = none ∧
    attnWeightsAt attnDemoParams [[[0]]] [[[0], [0]]] [[true, false]] 0 0 1 = 0 :=
  attention_masked_zero attnDemoParams [[[0]]] [[[0], [0]]] [[true, false]] 0 0 1
    (by decide) (by decide) (by decide) (by decide) (by decide) (by decide) (by decide)
    ⟨0, by decide, by decide⟩

/-! ## Node and edge generators

Embedding of `Embeddings` (models.py 313-320), `Decoder.node_forward`
(438-464) and `Decoder.edge_forward` (466-495).  The recurrent stacks
(`nn.GRU` with packing) are external torch modules and enter as explicit
function parameters from embedded input sequences to hidden-state
sequences; dropout is the evaluation-mode identity.  The decisive
structure — shared between input lookup and output scoring — is the single
embedding matrix `embedW`: `Embeddings.forward` looks rows up in
`lut.weight` (scaled by `sqrt d_model`), and the final
`F.linear(dropout(outputs), self.node_embeds.lut.weight)` (lines 462, 493)
multiplies by the transpose of that same matrix. -/

/-- `Embeddings.forward` at one id: row lookup in `lut.weight` scaled by
`sqrt d_model` (models.py 319-320). -/
noncomputable def embedLookup (W : List (List ℝ)) (d : ℕ) (id : ℕ) : List ℝ :=
  (W.getD id []).map (fun w => w * Real.sqrt d)

/-- The optional dimension-adapting projections of `Decoder.__init__`
(lines 412-419, 429-436): present (`some`) exactly when the widths differ,
absent (`none`, the identity) otherwise. -/
noncomputable def applyOptProj : Option (List (List ℝ) × List ℝ) → List ℝ → List ℝ
  | none, x => x
  | some Wb, x => linearB Wb.1 Wb.2 x

/-- The parameters of one decoder branch: the tied embedding matrix, the
`d_model` used for the `sqrt` scale, the optional input/output resizing
projections and the attention parameters. -/
structure DecParams where
  embedW : List (List ℝ)
  dModel : ℕ
  inputProj : Option (List (List ℝ) × List ℝ)
  attn : AttnParams
  outProj : Option (List (List ℝ) × List ℝ)

/-- The embedded, optionally projected input sequence of
`Decoder.node_forward` (lines 447-449). -/
noncomputable def nodeInputEmbeds (P : DecParams) (nodes : List ℕ) : List (List ℝ) :=
  nodes.map (fun id => applyOptProj P.inputProj (embedLookup P.embedW P.dModel id))

/-- The post-attention (and optionally resized) hidden states of
`Decoder.node_forward`: the `outputs` variable of lines 456-461 just
before the final vocabulary projection. -/
noncomputable def nodePostAttn (P : DecParams) (rnn : List (List ℝ) → List (List ℝ))
    (mem : List (List ℝ)) (memMask : List Bool) (nodes : List ℕ) : List (List ℝ) :=
  ((attnForward1 P.attn (rnn (nodeInputEmbeds P nodes)) mem memMask).1).map
    (applyOptProj P.outProj)

/-- `Decoder.node_forward` (lines 438-464), returning
`(rnn_outputs, vocabulary logits)`: the final scoring is
`F.linear(outputs, embedW)`, i.e. multiplication by the transpose of the
embedding matrix. -/
noncomputable def node_forward (P : DecParams) (rnn : List (List ℝ) → List (List ℝ))
    (mem : List (List ℝ)) (memMask : List Bool) (nodes : List ℕ) :
    List (List ℝ) × List (List ℝ) :=
  (rnn (nodeInputEmbeds P nodes),
    (nodePostAttn P rnn mem memMask nodes).map (fun h => linearNB P.embedW h))

/-- The per-step inputs of `Decoder.edge_forward` (lines 478-483): the
concatenation of the (optionally projected) edge embedding with the
selected source-node and target-node hidden states. -/
noncomputable def edgeInputs (P : DecParams) (edges : List ℕ)
    (srcN tgtN : List (List ℝ)) : List (List ℝ) :=
  ((edges.map (fun id => applyOptProj P.inputProj (embedLookup P.embedW P.dModel id))).zip
    (srcN.zip tgtN)).map (fun p => p.1 ++ p.2.1 ++ p.2.2)

/-- The post-attention (and optionally resized) hidden states of
`Decoder.edge_forward` (the `outputs` of lines 487-492). -/
noncomputable def edgePostAttn (P : DecParams) (rnn : List (List ℝ) → List (List ℝ))
    (mem : List (List ℝ)) (memMask : List Bool) (edges : List ℕ)
    (srcN tgtN : List (List ℝ)) : List (List ℝ) :=
  ((attnForward1 P.attn (rnn (edgeInputs P edges srcN tgtN)) mem memMask).1).map
    (applyOptProj P.outProj)

/-- `Decoder.edge_forward` (lines 466-495), returning
`(rnn_outputs, edge logits)`: the final scoring is
`F.linear(outputs, embedW)` through the same matrix `edge_embeds` was
constructed from. -/
noncomputable def edge_forward (P : DecParams) (rnn : List (List ℝ) → List (List ℝ))
    (mem : List (List ℝ)) (memMask : List Bool) (edges : List ℕ)
    (srcN tgtN : List (List ℝ)) : List (List ℝ) × List (List ℝ) :=
  (rnn (edgeInputs P edges srcN tgtN),
    (edgePostAttn P rnn mem memMask edges srcN tgtN).map (fun h => linearNB P.embedW h))

/-- The embedding matrix created by `GraphTrans.__init__` (models.py
95-97): `Embeddings(encoder_embed_dim, len(node_dict))` allocates a
`len(node_dict) × d` weight, and `self.edge_embeds = self.node_embeds`
makes the *same* table serve both node and edge branches.  `init` stands
for the learned weight values. -/
noncomputable def graphTransEmbedW (nodeVocab d : ℕ) (init : ℕ → ℕ → ℝ) : List (List ℝ) :=
  (List.range nodeVocab).map (fun i => (List.range d).map (init i))

lemma linearNB_getD (W : List (List ℝ)) (h : List ℝ) (v : ℕ) :
    (linearNB W h).getD v 0 = dotList (W.getD v []) h := by
  induction W generalizing v with
  | nil => simp [linearNB, dotList]
  | cons row rest ih =>
    cases v with
    | zero => rfl
    | succ v => simpa [linearNB] using ih v

/-- **C7**.  `Decoder.node_forward` scores the node vocabulary by
multiplying the post-attention hidden state with the transpose of
`P.embedW` — logit `v` is the dot product with row `v` of the matrix —
and the very same matrix field `P.embedW` supplies the input embedding
lookup: no independent output projection matrix participates in the
scoring. -/
theorem node_forward_weight_tying (P : DecParams) (rnn : List (List ℝ) → List (List ℝ))
    (mem : List (List ℝ)) (memMask : List Bool) (nodes : List ℕ) :
    (node_forward P rnn mem memMask nodes).2 =
      (nodePostAttn P rnn mem memMask nodes).map (fun h => linearNB P.embedW h) ∧
    (∀ h v, (linearNB P.embedW h).getD v 0 = dotList (P.embedW.getD v []) h) ∧
    (node_forward P rnn mem memMask nodes).1 =
      rnn (nodes.map (fun id => applyOptProj P.inputProj (embedLookup P.embedW P.dModel id))) := by
  exact ⟨rfl, fun h v => linearNB_getD P.embedW h v, rfl⟩

/-- **C8** (counterexample).  With a node dictionary of size `3` and an
edge dictionary of size `2`, the edge logits produced by
`Decoder.edge_forward` have last dimension `3` — the row count of the
shared `node_embeds` table (`self.edge_embeds = self.node_embeds`,
models.py 97) — not the edge dictionary's size `2`. -/
theorem edge_logits_vocab_claim_false :
    ((edge_forward ⟨graphTransEmbedW 3 1 (fun _ _ => 0), 1, none, attnDemoParams, none⟩
        (fun x => x) [[0]] [true] [0] [[0]] [[0]]).2.getD 0 []).length = 3 ∧
    (3 : ℕ) ≠ 2 := by
  constructor
  · rfl
  · decide

/-- **C8** (amended).  The edge logits are produced by the weight-tied
projection through the shared embedding table: every logits row has
length `P.embedW.length`, and the table wired in by `GraphTrans.__init__`
has `|node_vocab|` rows (it is the node embedding table, reused for
edges); the last dimension therefore equals `|edge_vocab|` only when the
two dictionaries have equal size. -/
theorem edge_forward_logits_vocab (P : DecParams) (rnn : List (List ℝ) → List (List ℝ))
    (mem : List (List ℝ)) (memMask : List Bool) (edges : List ℕ)
    (srcN tgtN : List (List ℝ)) :
    (edge_forward P rnn mem memMask edges srcN tgtN).2 =
      (edgePostAttn P rnn mem memMask edges srcN tgtN).map (fun h => linearNB P.embedW h) ∧
    (∀ t, ((edge_forward P rnn mem memMask edges srcN tgtN).2.getD t []).length =
      if t < (edge_forward P rnn mem memMask edges srcN tgtN).2.length
      then P.embedW.length else 0) ∧
    (∀ nv d init, (graphTransEmbedW nv d init).length = nv) := by
  refine ⟨rfl, ?_, ?_⟩
  · intro t
    by_cases ht : t < (edge_forward P rnn mem memMask edges srcN tgtN).2.length
    · rw [if_pos ht]
      have ht' : t < (edgePostAttn P rnn mem memMask edges srcN tgtN).length := by
        simpa [edge_forward] using ht
      show (((edgePostAttn P rnn mem memMask edges srcN tgtN).map
        (fun h => linearNB P.embedW h)).getD t []).length = P.embedW.length
      rw [List.getD_eq_getElem?_getD, List.getElem?_map, List.getElem?_eq_getElem ht']
      simp [linearNB]
    · rw [if_neg ht, List.getD_eq_default _ _ (by omega)]
      rfl
  · intro nv d init
    simp [graphTransEmbedW]

end SceneGraph
